import Mathlib

/-
  Verification of the fuzzy-matching core of phosphor-commandpalette.

  Strings of the TypeScript source are embedded as List Char; a JS string
  index is a Nat.  Each definition mirrors one function of the source:
    * StringSearch.sumOfSquares / StringSearch.highlight (src/src/stringsearch.ts)
    * AbstractPaletteModel.splitQuery / joinQuery (abstractmodel)
    * StandardPaletteModel item registry and search pipeline (standardmodel)
  JS String.prototype.trim and the \s regex class use the ECMAScript
  whitespace set, embedded below as isWs.
-/

namespace PhosphorPalette

/-- The ECMAScript whitespace set: the characters matched by \s and removed
by String.prototype.trim (tab, line feed, vertical tab, form feed, carriage
return, space, no-break space, ogham space mark, the en-quad..hair-space
range, line separator, paragraph separator, narrow no-break space, medium
mathematical space, ideographic space, byte order mark). -/
def isWs (c : Char) : Bool :=
  let n := c.toNat
  (9 ≤ n && n ≤ 13) || n == 32 || n == 160 || n == 0x1680 ||
    (0x2000 ≤ n && n ≤ 0x200A) || n == 0x2028 || n == 0x2029 ||
    n == 0x202F || n == 0x205F || n == 0x3000 || n == 0xFEFF

/-- Leading whitespace removal, the left half of JS String.prototype.trim. -/
def trimLeft (l : List Char) : List Char :=
  l.dropWhile isWs

/-- Trailing whitespace removal, the right half of JS String.prototype.trim. -/
def trimRight (l : List Char) : List Char :=
  (l.reverse.dropWhile isWs).reverse

/-- JS String.prototype.trim: strip whitespace from both ends. -/
def trim (l : List Char) : List Char :=
  trimRight (trimLeft l)

/-- Scan a list for the character c, reporting positions starting at j.
Helper for indexOfFrom. -/
def scanFrom (c : Char) : List Char → Nat → Option Nat
  | [], _ => none
  | x :: xs, j => if x = c then some j else scanFrom c xs (j + 1)

/-- JS String.prototype.indexOf(c, j) for a single-character needle: the
least index k ≥ j with s[k] = c, or none (-1 in JS) when there is none. -/
def indexOfFrom (s : List Char) (c : Char) (j : Nat) : Option Nat :=
  scanFrom c (s.drop j) j

namespace StringSearch

/-- The loop of StringSearch.sumOfSquares (stringsearch.ts lines 59-69):
for each query character, find it in sourceText at or after the scan
position j; a failed lookup aborts with null (none).  On success the match
index k is recorded and k*k added to the score, and the scan resumes at
k+1. -/
def sumOfSquaresGo (sourceText : List Char) : List Char → Nat → Option (Nat × List Nat)
  | [], _ => some (0, [])
  | c :: rest, j =>
    match indexOfFrom sourceText c j with
    | none => none
    | some k =>
      match sumOfSquaresGo sourceText rest (k + 1) with
      | none => none
      | some (s, idxs) => some (k * k + s, k :: idxs)

/-- StringSearch.sumOfSquares: the result is (score, indices), or none for
the no-match case (null in the source). -/
def sumOfSquares (sourceText queryText : List Char) : Option (Nat × List Nat) :=
  sumOfSquaresGo sourceText queryText 0

/-- JS String.prototype.slice(a, b): the characters with index in [a, b). -/
def slice (s : List Char) (a b : Nat) : List Char :=
  (s.take b).drop a

/-- The inner while loop of StringSearch.highlight: starting from a run
that currently ends at j, consume following indices while each equals its
predecessor plus one; return the final run end and the unconsumed rest. -/
def extendRun (j : Nat) : List Nat → Nat × List Nat
  | [] => (j, [])
  | k :: rest => if k = j + 1 then extendRun k rest else (j, k :: rest)

theorem extendRun_snd_length (j : Nat) (l : List Nat) :
    (extendRun j l).2.length ≤ l.length := by
  induction l generalizing j with
  | nil => simp [extendRun]
  | cons k rest ih =>
    simp only [extendRun]
    split
    · exact Nat.le_trans (ih k) (Nat.le_succ _)
    · exact Nat.le_refl _

/-- The outer while loop of StringSearch.highlight (stringsearch.ts lines
82-97): each iteration takes the maximal consecutive run i..j at the head
of the index list, appends the untouched gap, the run wrapped in one
em-tag pair, and continues after the run. -/
def highlightGo (sourceText : List Char) : Nat → List Nat → List Char
  | last, [] => sourceText.drop last
  | last, i :: rest =>
    slice sourceText last i ++ "<em>".toList ++
      slice sourceText i ((extendRun i rest).1 + 1) ++ "</em>".toList ++
      highlightGo sourceText ((extendRun i rest).1 + 1) (extendRun i rest).2
termination_by _ l => l.length
decreasing_by
  simp_wf
  exact Nat.lt_succ_of_le (extendRun_snd_length _ _)

/-- StringSearch.highlight. -/
def highlight (sourceText : List Char) (indices : List Nat) : List Char :=
  highlightGo sourceText 0 indices

/-- The decomposition of an index list into its maximal consecutive runs,
each recorded as (first, last); this is the run structure the highlight
loop walks. -/
def runs : List Nat → List (Nat × Nat)
  | [] => []
  | i :: rest => (i, (extendRun i rest).1) :: runs (extendRun i rest).2
termination_by l => l.length
decreasing_by
  simp_wf
  exact Nat.lt_succ_of_le (extendRun_snd_length _ _)

/-- Modelled from the spec (section 4.2 Highlighter): render a source
string from a list of matched runs, copying each unmatched gap verbatim
and wrapping each run in a single em marker pair. -/
def specRender (s : List Char) : Nat → List (Nat × Nat) → List Char
  | last, [] => s.drop last
  | last, (a, b) :: rs =>
    slice s last a ++ "<em>".toList ++ slice s a (b + 1) ++ "</em>".toList ++
      specRender s (b + 1) rs

/-- Modelled from the spec (section 4.2 Highlighter): the highlighter as the
spec words it, one marker pair per maximal contiguous run of matched
indices, non-matched regions unchanged. -/
def specHighlight (s : List Char) (indices : List Nat) : List Char :=
  specRender s 0 (runs indices)

/-- The indices covered by a list of runs, in order: run (a, b) covers
a, a+1, ..., b. -/
def flattenRuns : List (Nat × Nat) → List Nat
  | [] => []
  | (a, b) :: rs => List.range' a (b + 1 - a) ++ flattenRuns rs

end StringSearch

/-! Query splitting of AbstractPaletteModel (splitQuery / joinQuery). -/

/-- AbstractPaletteModel.splitQuery: split a raw query at the first colon;
without a colon the category is empty and the whole trimmed input is the
text. -/
def splitQuery (query : List Char) : List Char × List Char :=
  match indexOfFrom query ':' 0 with
  | none => ([], trim query)
  | some i => (trim (query.take i), trim (query.drop (i + 1)))

/-- AbstractPaletteModel.joinQuery: the template string category + ": " +
text, each part trimmed. -/
def joinQuery (category text : List Char) : List Char :=
  trim category ++ ':' :: ' ' :: trim text

/-! The standard palette model (standardmodel variant with category-aware
search).  The JS handler function of an item is not representable and is
never inspected by the model's logic, so it is omitted; the opaque args
value is embedded as a Nat. -/

/-- Private.normalizeQueryText: strip all whitespace and lower-case
(text.replace of every whitespace run by nothing, then toLowerCase).
Char.toLower embeds JS String.prototype.toLowerCase. -/
def normalizeQueryText (text : List Char) : List Char :=
  (text.filter fun c => !isWs c).map Char.toLower

/-- The collapse step of Private.normalizeCategory: replace each maximal
whitespace run by a single space (the replace of the whitespace-run regex
by one space). -/
def collapseWs : List Char → List Char
  | [] => []
  | c :: rest =>
    if isWs c then ' ' :: collapseWs (rest.dropWhile isWs)
    else c :: collapseWs rest
termination_by l => l.length
decreasing_by
  all_goals simp_wf
  all_goals exact Nat.lt_succ_of_le (List.dropWhile_sublist isWs).length_le

/-- Private.normalizeCategory: trim, collapse internal whitespace, then
lower-case. -/
def normalizeCategory (category : List Char) : List Char :=
  (collapseWs (trim category)).map Char.toLower

/-- The palette item data (class StandardPaletteItem): the stored fields
after construction.  args doubles as the identity of the JS object. -/
structure StandardPaletteItem where
  text : List Char
  category : List Char
  icon : List Char
  caption : List Char
  shortcut : List Char
  className : List Char
  args : Nat
deriving DecidableEq

/-- IStandardPaletteItemOptions: the optional fields are absent (none) or
given; the constructor fills the defaults. -/
structure IStandardPaletteItemOptions where
  text : List Char
  args : Option Nat
  icon : Option (List Char)
  caption : Option (List Char)
  shortcut : Option (List Char)
  className : Option (List Char)
  category : Option (List Char)
deriving DecidableEq

/-- The StandardPaletteItem constructor: empty-string defaults for the
decorative fields and category normalization, applied exactly once. -/
def StandardPaletteItem.ofOptions (o : IStandardPaletteItemOptions) : StandardPaletteItem :=
  ⟨o.text, normalizeCategory (o.category.getD []), o.icon.getD [], o.caption.getD [],
    o.shortcut.getD [], o.className.getD [], o.args.getD 0⟩

/-! Registry mutations of StandardPaletteModel.  Each returns the new item
list and whether the changed signal was emitted by that call. -/

/-- StandardPaletteModel.addItem: push the new item, always emit. -/
def addItem (items : List StandardPaletteItem) (o : IStandardPaletteItemOptions) :
    List StandardPaletteItem × Bool :=
  (items ++ [StandardPaletteItem.ofOptions o], true)

/-- StandardPaletteModel.addItems: push all new items, emit once. -/
def addItems (items : List StandardPaletteItem) (os : List IStandardPaletteItemOptions) :
    List StandardPaletteItem × Bool :=
  (items ++ os.map StandardPaletteItem.ofOptions, true)

/-- StandardPaletteModel.removeItem: arrays.remove drops the first
occurrence and reports its index; the signal fires only when it was
found. -/
def removeItem (items : List StandardPaletteItem) (item : StandardPaletteItem) :
    List StandardPaletteItem × Bool :=
  if item ∈ items then (items.erase item, true) else (items, false)

/-- StandardPaletteModel.removeItems: keep the items not in the given
list; the signal fires only when the length changed. -/
def removeItems (items : List StandardPaletteItem) (toRemove : List StandardPaletteItem) :
    List StandardPaletteItem × Bool :=
  let rest := items.filter fun it => it ∉ toRemove
  if rest.length = items.length then (items, false) else (rest, true)

/-- StandardPaletteModel.clearItems: a no-op on an empty registry,
otherwise empty the list and emit. -/
def clearItems (items : List StandardPaletteItem) : List StandardPaletteItem × Bool :=
  if items.length = 0 then (items, false) else ([], true)

/-! The search pipeline (StandardPaletteModel.search and the Private
namespace helpers). -/

/-- Private.IScore: indices is null (none) for a trivial empty-query
match. -/
structure IScore where
  score : Nat
  indices : Option (List Nat)
deriving DecidableEq

/-- Private.IItemScore: an IScore with its palette item. -/
structure IItemScore where
  score : Nat
  indices : Option (List Nat)
  item : StandardPaletteItem
deriving DecidableEq

/-- Lookup in a string-keyed map (the StringMap objects of the source),
embedded as an association list in insertion order. -/
def alookup {α : Type} : List (List Char × α) → List Char → Option α
  | [], _ => none
  | (k, v) :: rest, key => if k = key then some v else alookup rest key

/-- The loop of Private.matchCategory: walk the items, skipping already
seen categories; an empty query matches every category with score 0 and
null indices, otherwise the category must pass sumOfSquares. -/
def matchCategoryGo (query : List Char) :
    List StandardPaletteItem → List (List Char) → List (List Char × IScore)
  | [], _ => []
  | it :: rest, seen =>
    if it.category ∈ seen then matchCategoryGo query rest seen
    else if query = [] then
      (it.category, ⟨0, none⟩) :: matchCategoryGo query rest (it.category :: seen)
    else
      match StringSearch.sumOfSquares it.category query with
      | none => matchCategoryGo query rest (it.category :: seen)
      | some (s, idx) => (it.category, ⟨s, some idx⟩) :: matchCategoryGo query rest (it.category :: seen)

/-- Private.matchCategory. -/
def matchCategory (items : List StandardPaletteItem) (query : List Char) :
    List (List Char × IScore) :=
  matchCategoryGo (normalizeQueryText query) items []

/-- The loop of Private.matchText: an item whose category is missing from
the category map is skipped; an empty query matches every remaining item
with the category score and null indices, otherwise the lower-cased item
text must pass sumOfSquares and the text score is added to the category
score. -/
def matchTextGo (query : List Char) (categories : List (List Char × IScore)) :
    List StandardPaletteItem → List IItemScore
  | [] => []
  | it :: rest =>
    match alookup categories it.category with
    | none => matchTextGo query categories rest
    | some cs =>
      if query = [] then ⟨cs.score, none, it⟩ :: matchTextGo query categories rest
      else
        match StringSearch.sumOfSquares (it.text.map Char.toLower) query with
        | none => matchTextGo query categories rest
        | some (s, idx) => ⟨cs.score + s, some idx, it⟩ :: matchTextGo query categories rest

/-- Private.matchText. -/
def matchText (items : List StandardPaletteItem) (query : List Char)
    (categories : List (List Char × IScore)) : List IItemScore :=
  matchTextGo (normalizeQueryText query) categories items

/-- The type of the locale comparison String.prototype.localeCompare, an
environment-supplied three-way comparator on strings. -/
def LocaleCmp : Type :=
  List Char → List Char → Int

/-- Private.scoreCmp: ascending score, ties by locale order of the
category, then of the text.  The subtraction of JS numbers is the Int
subtraction of the two Nat scores. -/
def scoreCmp (lc : LocaleCmp) (a b : IItemScore) : Int :=
  let d1 : Int := (a.score : Int) - (b.score : Int)
  if d1 ≠ 0 then d1
  else
    let d2 := lc a.item.category b.item.category
    if d2 ≠ 0 then d2
    else lc a.item.text b.item.text

/-- The non-strict order induced by scoreCmp, the contract a JS sort
comparator imposes on its output. -/
def scoreLe (lc : LocaleCmp) (a b : IItemScore) : Prop :=
  scoreCmp lc a b ≤ 0

instance (lc : LocaleCmp) : DecidableRel (scoreLe lc) := fun a b => by
  unfold scoreLe
  infer_instance

/-- The scores.sort(Private.scoreCmp) call: Array.prototype.sort with a
consistent comparator produces a stable sorted permutation, embedded as
insertion sort by the comparator's order. -/
def sortScores (lc : LocaleCmp) (scores : List IItemScore) : List IItemScore :=
  List.insertionSort (scoreLe lc) scores

/-- One step of Private.groupScores: append the score to its category's
group, or open a new group at the end (object key insertion order). -/
def addToGroups : List (List Char × List IItemScore) → IItemScore →
    List (List Char × List IItemScore)
  | [], sc => [(sc.item.category, [sc])]
  | (cat, g) :: rest, sc =>
    if cat = sc.item.category then (cat, g ++ [sc]) :: rest
    else (cat, g) :: addToGroups rest sc

/-- The fold of Private.groupScores over the sorted scores. -/
def groupScoresGo : List (List Char × List IItemScore) → List IItemScore →
    List (List Char × List IItemScore)
  | acc, [] => acc
  | acc, sc :: rest => groupScoresGo (addToGroups acc sc) rest

/-- Private.groupScores: group the sorted scores by item category, in
order of first appearance. -/
def groupScores (scores : List IItemScore) : List (List Char × List IItemScore) :=
  groupScoresGo [] scores

/-- ISearchResult: the tagged union of header and command results.  The
command's handler is omitted (a JS function); args is the Nat surrogate. -/
inductive SearchResult where
  | header (text : List Char) (category : List Char)
  | command (text icon caption shortcut className : List Char) (args : Nat)
deriving DecidableEq

/-- Private.highlightText: null indices leave the text untouched. -/
def highlightText (text : List Char) (indices : Option (List Nat)) : List Char :=
  match indices with
  | none => text
  | some idx => StringSearch.highlight text idx

/-- Private.createHeaderResult. -/
def createHeaderResult (category : List Char) (score : IScore) : SearchResult :=
  .header (highlightText category score.indices) category

/-- Private.createCommandResult. -/
def createCommandResult (score : IItemScore) : SearchResult :=
  .command (highlightText score.item.text score.indices) score.item.icon
    score.item.caption score.item.shortcut score.item.className score.item.args

/-- Private.createSearchResults: one header per group followed by that
group's commands.  In the source categories[cat] is always defined for a
grouped category (every grouped item passed matchText, which requires its
category to be in the map); the getD default only makes the embedding
total. -/
def createSearchResults : List (List Char × List IItemScore) → List (List Char × IScore) →
    List SearchResult
  | [], _ => []
  | (cat, g) :: rest, categories =>
    (createHeaderResult cat ((alookup categories cat).getD ⟨0, none⟩)
        :: g.map createCommandResult)
      ++ createSearchResults rest categories

/-- StandardPaletteModel.search: match categories, filter and score the
items, sort, group and render. -/
def search (lc : LocaleCmp) (items : List StandardPaletteItem)
    (category text : List Char) : List SearchResult :=
  createSearchResults
    (groupScores (sortScores lc (matchText items text (matchCategory items category))))
    (matchCategory items category)

/-- The concatenation of the grouped scores, in output order: it is in
bijection with the command entries of the search output. -/
def groupsFlat : List (List Char × List IItemScore) → List IItemScore
  | [] => []
  | (_, g) :: rest => g ++ groupsFlat rest

/-- The item scores underlying the command entries of search, in output
order. -/
def searchFlat (lc : LocaleCmp) (items : List StandardPaletteItem)
    (category text : List Char) : List IItemScore :=
  groupsFlat (groupScores (sortScores lc (matchText items text (matchCategory items category))))

/-- The command entries of a search result list, in order. -/
def commandsOf : List SearchResult → List SearchResult
  | [] => []
  | SearchResult.header _ _ :: rest => commandsOf rest
  | SearchResult.command t i c s cl a :: rest =>
    SearchResult.command t i c s cl a :: commandsOf rest

/-- A concrete locale comparator for witnesses: code-point lexicographic
order, one consistent order of the family localeCompare may realize. -/
def codeCmp : List Char → List Char → Int
  | [], [] => 0
  | [], _ :: _ => -1
  | _ :: _, [] => 1
  | a :: as, b :: bs =>
    if a.toNat < b.toNat then -1
    else if b.toNat < a.toNat then 1
    else codeCmp as bs

/-- The three palette items of the sort counterexample: categories a and b
with text scores 0, 1 and 4 against the text query x. -/
def cexItems : List StandardPaletteItem :=
  [⟨"x".toList, "a".toList, [], [], [], [], 1⟩,
   ⟨"ax".toList, "b".toList, [], [], [], [], 2⟩,
   ⟨"aax".toList, "a".toList, [], [], [], [], 3⟩]

/-! ### Properties of the character scan -/

theorem scanFrom_eq_none {c : Char} :
    ∀ {l : List Char} {j : Nat}, scanFrom c l j = none ↔ c ∉ l := by
  intro l
  induction l with
  | nil => simp [scanFrom]
  | cons x xs ih =>
    intro j
    by_cases hx : x = c
    · subst hx
      simp [scanFrom]
    · simp only [scanFrom, if_neg hx, List.mem_cons]
      rw [ih]
      constructor
      · intro h hc
        rcases hc with hc | hc
        · exact hx hc.symm
        · exact h hc
      · intro h hc
        exact h (Or.inr hc)

theorem scanFrom_some_decomp {c : Char} :
    ∀ {l : List Char} {j k : Nat}, scanFrom c l j = some k →
      ∃ A B, l = A ++ c :: B ∧ c ∉ A ∧ k = j + A.length := by
  intro l
  induction l with
  | nil => intro j k h; simp [scanFrom] at h
  | cons x xs ih =>
    intro j k h
    by_cases hx : x = c
    · subst hx
      have hjk : j = k := by simpa [scanFrom] using h
      exact ⟨[], xs, rfl, by simp, by simp [hjk]⟩
    · have h' : scanFrom c xs (j + 1) = some k := by
        simpa [scanFrom, if_neg hx] using h
      obtain ⟨A, B, hl, hA, hk⟩ := ih h'
      refine ⟨x :: A, B, by simp [hl], ?_, ?_⟩
      · simp only [List.mem_cons, not_or]
        exact ⟨fun hc => hx hc.symm, hA⟩
      · simp only [List.length_cons, hk]
        omega

theorem scanFrom_append {c : Char} :
    ∀ {A : List Char}, c ∉ A → ∀ (B : List Char) (j : Nat),
      scanFrom c (A ++ c :: B) j = some (j + A.length) := by
  intro A
  induction A with
  | nil => intro _ B j; simp [scanFrom]
  | cons a A ih =>
    intro hA B j
    simp only [List.mem_cons, not_or] at hA
    have ha : a ≠ c := fun h => hA.1 h.symm
    show (if a = c then some j else scanFrom c (A ++ c :: B) (j + 1)) = _
    rw [if_neg ha, ih hA.2]
    simp only [List.length_cons]
    congr 1
    omega

/-! ### The greedy scan never misses a subsequence (C1) -/

theorem cons_sublist_of_mid {c : Char} {r : List Char} :
    ∀ {A B : List Char}, c ∉ A → List.Sublist (c :: r) (A ++ c :: B) →
      List.Sublist r B := by
  intro A
  induction A with
  | nil =>
    intro B _ h
    exact (List.cons_sublist_cons).mp h
  | cons a A ih =>
    intro B hA h
    simp only [List.mem_cons, not_or] at hA
    cases h with
    | cons _ h' => exact ih hA.2 h'
    | cons₂ _ h' => exact absurd rfl hA.1

theorem cons_sublist_into_mid {c : Char} {r : List Char} {A B : List Char}
    (h : List.Sublist r B) : List.Sublist (c :: r) (A ++ c :: B) :=
  List.Sublist.trans (List.cons_sublist_cons.mpr h) (List.sublist_append_right A (c :: B))

theorem sumOfSquaresGo_eq_none_iff :
    ∀ (q s : List Char) (j : Nat),
      StringSearch.sumOfSquaresGo s q j = none ↔ ¬ List.Sublist q (s.drop j) := by
  intro q
  induction q with
  | nil =>
    intro s j
    simp [StringSearch.sumOfSquaresGo, List.nil_sublist]
  | cons c rest ih =>
    intro s j
    cases h : indexOfFrom s c j with
    | none =>
      have hmem : c ∉ s.drop j := scanFrom_eq_none.mp h
      simp only [StringSearch.sumOfSquaresGo, h]
      constructor
      · intro _ hsub
        exact hmem (hsub.subset (List.mem_cons_self c rest))
      · intro _
        trivial
    | some k =>
      obtain ⟨A, B, hl, hA, hk⟩ := scanFrom_some_decomp h
      have hdropk : s.drop (k + 1) = B := by
        have h1 : (s.drop j).drop (A.length + 1) = s.drop (j + (A.length + 1)) :=
          List.drop_drop (A.length + 1) j s
        have h2 : (s.drop j).drop (A.length + 1) = B := by
          rw [hl]
          have hAB : A ++ c :: B = (A ++ [c]) ++ B := by simp
          rw [hAB]
          have hlen : A.length + 1 = (A ++ [c]).length := by simp
          rw [hlen, List.drop_left]
        have h3 : k + 1 = j + (A.length + 1) := by omega
        rw [h3, ← h1, h2]
      simp only [StringSearch.sumOfSquaresGo, h]
      have hiff : List.Sublist (c :: rest) (s.drop j) ↔ List.Sublist rest B := by
        rw [hl]
        exact ⟨cons_sublist_of_mid hA, cons_sublist_into_mid⟩
      cases h2 : StringSearch.sumOfSquaresGo s rest (k + 1) with
      | none =>
        have hni := (ih s (k + 1)).mp h2
        rw [hdropk] at hni
        simp only [hiff]
        constructor
        · intro _ hsub
          exact hni hsub
        · intro _
          trivial
      | some p =>
        have hnot : ¬ StringSearch.sumOfSquaresGo s rest (k + 1) = none := by
          rw [h2]
          simp
        have hsub := (ih s (k + 1)).not.mp hnot
        rw [hdropk, not_not] at hsub
        simp only [hiff]
        constructor
        · intro habs
          exact absurd habs (by simp)
        · intro hc
          exact absurd hsub hc

/-- C1: sumOfSquares returns the no-match result (none, not a score) if
and only if the query is not a subsequence of the source under exact
character equality; the greedy leftmost scan never misses an existing
subsequence embedding, and in particular a non-empty query against an
empty source is a no-match. -/
theorem C1_no_match_iff_not_subsequence :
    (∀ s q : List Char, StringSearch.sumOfSquares s q = none ↔ ¬ List.Sublist q s) ∧
      (∀ (c : Char) (q : List Char), StringSearch.sumOfSquares [] (c :: q) = none) := by
  have main : ∀ s q : List Char,
      StringSearch.sumOfSquares s q = none ↔ ¬ List.Sublist q s := by
    intro s q
    have hiff := sumOfSquaresGo_eq_none_iff q s 0
    simpa [StringSearch.sumOfSquares] using hiff
  refine ⟨main, fun c q => ?_⟩
  rw [main]
  intro h
  exact List.cons_ne_nil c q (List.sublist_nil.mp h)

/-! ### Shape of a successful match (C2) -/

theorem sumOfSquaresGo_some_spec :
    ∀ (q s : List Char) (j sc : Nat) (idx : List Nat),
      StringSearch.sumOfSquaresGo s q j = some (sc, idx) →
      idx.length = q.length ∧
        (∀ k ∈ idx, j ≤ k) ∧
        idx.Pairwise (· < ·) ∧
        (∀ k ∈ idx, k < s.length) ∧
        (∀ p ∈ idx.zip q, s[p.1]? = some p.2) ∧
        sc = (idx.map fun k => k * k).sum := by
  intro q
  induction q with
  | nil =>
    intro s j sc idx h
    simp only [StringSearch.sumOfSquaresGo, Option.some.injEq, Prod.mk.injEq] at h
    obtain ⟨hsc, hidx⟩ := h
    subst hsc
    subst hidx
    simp
  | cons c rest ih =>
    intro s j sc idx h
    cases hfind : indexOfFrom s c j with
    | none =>
      rw [StringSearch.sumOfSquaresGo] at h
      simp only [hfind] at h
      exact absurd h (by simp)
    | some k =>
      rw [StringSearch.sumOfSquaresGo] at h
      simp only [hfind] at h
      cases hrec : StringSearch.sumOfSquaresGo s rest (k + 1) with
      | none =>
        simp only [hrec] at h
        exact absurd h (by simp)
      | some p =>
        obtain ⟨s', idx'⟩ := p
        simp only [hrec, Option.some.injEq, Prod.mk.injEq] at h
        obtain ⟨hsc, hidx⟩ := h
        obtain ⟨A, B, hl, hA, hk⟩ := scanFrom_some_decomp hfind
        have hlendrop : (s.drop j).length = s.length - j := List.length_drop j s
        have hlens : s.length = j + A.length + 1 + B.length := by
          rw [hl] at hlendrop
          simp only [List.length_append, List.length_cons] at hlendrop
          omega
        have hkbound : k < s.length := by omega
        have hkval : s[k]? = some c := by
          have hd : (s.drop j)[A.length]? = s[j + A.length]? :=
            List.getElem?_drop s j A.length
          have hval : (s.drop j)[A.length]? = some c := by
            rw [hl]
            rw [List.getElem?_append_right (Nat.le_refl A.length)]
            simp
          rw [hd, ← hk] at hval
          exact hval
        obtain ⟨ihlen, ihlow, ihpw, ihbd, ihzip, ihsum⟩ := ih s (k + 1) s' idx' hrec
        subst hidx
        refine ⟨by simp [ihlen], ?_, ?_, ?_, ?_, ?_⟩
        · intro x hx
          rcases List.mem_cons.mp hx with hx | hx
          · omega
          · have := ihlow x hx
            omega
        · rw [List.pairwise_cons]
          refine ⟨fun x hx => ?_, ihpw⟩
          have := ihlow x hx
          omega
        · intro x hx
          rcases List.mem_cons.mp hx with hx | hx
          · subst hx
            exact hkbound
          · exact ihbd x hx
        · intro p hp
          rcases List.mem_cons.mp hp with hp | hp
          · subst hp
            exact hkval
          · exact ihzip p hp
        · simp only [List.map_cons, List.sum_cons]
          omega

/-- C2: every successful sumOfSquares match (score, indices) satisfies:
the index list has the query's length, is strictly increasing, every
index is inside the source, the source character at the i-th index is the
i-th query character, and the score is the sum of the squared indices (so
an empty query yields score 0 and empty indices). -/
theorem C2_match_result_shape (s q : List Char) (sc : Nat) (idx : List Nat)
    (h : StringSearch.sumOfSquares s q = some (sc, idx)) :
    idx.length = q.length ∧
      idx.Pairwise (· < ·) ∧
      (∀ k ∈ idx, k < s.length) ∧
      (∀ p ∈ idx.zip q, s[p.1]? = some p.2) ∧
      sc = (idx.map fun k => k * k).sum := by
  obtain ⟨h1, _, h3, h4, h5, h6⟩ := sumOfSquaresGo_some_spec q s 0 sc idx h
  exact ⟨h1, h3, h4, h5, h6⟩

/-- Witness for C2 at the concrete match of query abc inside source
xabc: the hypothesis holds by computation and the shape facts follow by
applying the theorem. -/
theorem C2_match_result_shape_witness :
    StringSearch.sumOfSquares "xabc".toList "abc".toList = some (14, [1, 2, 3]) ∧
      ([1, 2, 3].length = "abc".toList.length ∧
        List.Pairwise (· < ·) [1, 2, 3] ∧
        (∀ k ∈ [1, 2, 3], k < "xabc".toList.length) ∧
        (∀ p ∈ [1, 2, 3].zip "abc".toList, "xabc".toList[p.1]? = some p.2) ∧
        14 = ([1, 2, 3].map fun k => k * k).sum) :=
  ⟨by decide, C2_match_result_shape "xabc".toList "abc".toList 14 [1, 2, 3] (by decide)⟩

/-! ### Prefix scores and the zero score (C3) -/

theorem sumOfSquaresGo_of_take :
    ∀ (q s : List Char) (j : Nat), (s.drop j).take q.length = q →
      StringSearch.sumOfSquaresGo s q j =
        some (((List.range' j q.length).map fun k => k * k).sum, List.range' j q.length) := by
  intro q
  induction q with
  | nil =>
    intro s j _
    simp [StringSearch.sumOfSquaresGo]
  | cons c rest ih =>
    intro s j h
    cases hs : s.drop j with
    | nil =>
      rw [hs] at h
      simp at h
    | cons x tail =>
      rw [hs] at h
      simp only [List.length_cons, List.take_succ_cons, List.cons.injEq] at h
      obtain ⟨hx, htail⟩ := h
      subst hx
      have hfind : indexOfFrom s x j = some j := by
        unfold indexOfFrom
        rw [hs]
        simp [scanFrom]
      have hdrop : s.drop (j + 1) = tail := by
        have hdd : (s.drop j).drop 1 = s.drop (j + 1) := List.drop_drop 1 j s
        rw [hs] at hdd
        simpa using hdd.symm
      have hrec := ih s (j + 1) (by rw [hdrop]; exact htail)
      rw [StringSearch.sumOfSquaresGo]
      simp only [hfind, hrec]
      have hr : List.range' j (rest.length + 1) = j :: List.range' (j + 1) rest.length := rfl
      simp [hr]

/-- C3 counterexample: sumOfSquares("abcdef", "abc") does not have score
0; it matches at indices 0, 1, 2 and scores 0 + 1 + 4 = 5. -/
theorem C3_prefix_score_counterexample :
    StringSearch.sumOfSquares "abcdef".toList "abc".toList = some (5, [0, 1, 2]) ∧
      (5 : Nat) ≠ 0 :=
  ⟨by decide, by decide⟩

/-- C3 (amended): a prefix match of length n scores the sum of the first n
squares: sumOfSquares("abcdef", "abc") scores 5 and sumOfSquares("xabc",
"abc") scores 14; in general a query that is a prefix of the source
matches at indices 0..n-1, and a zero score occurs exactly when the query
is empty or a single character equal to the first source character, i.e. a
prefix of length at most one. -/
theorem C3_prefix_scores_amended :
    StringSearch.sumOfSquares "abcdef".toList "abc".toList = some (5, [0, 1, 2]) ∧
      StringSearch.sumOfSquares "xabc".toList "abc".toList = some (14, [1, 2, 3]) ∧
      (∀ s q : List Char, s.take q.length = q →
        StringSearch.sumOfSquares s q =
          some (((List.range' 0 q.length).map fun k => k * k).sum, List.range' 0 q.length)) ∧
      (∀ (s q : List Char) (sc : Nat) (idx : List Nat),
        StringSearch.sumOfSquares s q = some (sc, idx) →
        (sc = 0 ↔ q.length ≤ 1 ∧ s.take q.length = q)) := by
  refine ⟨by decide, by decide, ?_, ?_⟩
  · intro s q h
    have hdrop : (s.drop 0).take q.length = q := by simpa using h
    simpa [StringSearch.sumOfSquares] using sumOfSquaresGo_of_take q s 0 hdrop
  · intro s q sc idx h
    constructor
    · intro hsc
      subst hsc
      cases q with
      | nil => simp
      | cons c rest =>
        obtain ⟨hlen, hlow, _, _, hzip, hsum⟩ := sumOfSquaresGo_some_spec (c :: rest) s 0 0 idx h
        cases idx with
        | nil => simp at hlen
        | cons k idx' =>
          have hk0 : k = 0 := by
            have : k * k ≤ 0 := by
              have hs := hsum.symm
              simp only [List.map_cons, List.sum_cons] at hs
              omega
            by_contra hk
            have : 1 ≤ k := Nat.one_le_iff_ne_zero.mpr hk
            nlinarith
          subst hk0
          have hidx' : idx' = [] := by
            cases hx : idx' with
            | nil => rfl
            | cons m ms =>
              exfalso
              have hm : m ∈ (0 : Nat) :: idx' := by
                rw [hx]
                exact List.mem_cons_of_mem 0 (List.mem_cons_self m ms)
              have hge : 1 ≤ m := by
                have hpw := (sumOfSquaresGo_some_spec (c :: rest) s 0 0 ((0 : Nat) :: idx') h).2.2.1
                rw [List.pairwise_cons] at hpw
                have := hpw.1 m (by rw [hx]; exact List.mem_cons_self m ms)
                omega
              have hsq : m * m ≤ 0 := by
                have hs := hsum.symm
                rw [hx] at hs
                simp only [List.map_cons, List.sum_cons] at hs
                omega
              nlinarith
          subst hidx'
          have hrest : rest = [] := by
            have : (1 : Nat) = rest.length + 1 := by simpa using hlen
            cases rest with
            | nil => rfl
            | cons a b => simp at this
          subst hrest
          have hchar : s[(0 : Nat)]? = some c := by
            have := hzip (0, c) (by simp)
            simpa using this
          refine ⟨by simp, ?_⟩
          cases s with
          | nil => simp at hchar
          | cons y ys =>
            have : y = c := by simpa using hchar
            simp [this]
    · intro ⟨hlen, htake⟩
      cases q with
      | nil =>
        have : StringSearch.sumOfSquares s ([] : List Char) = some (0, []) := rfl
        rw [this] at h
        simp only [Option.some.injEq, Prod.mk.injEq] at h
        exact h.1.symm
      | cons c rest =>
        have hrest : rest = [] := by
          cases rest with
          | nil => rfl
          | cons a b => simp at hlen
        subst hrest
        have hpre : (s.drop 0).take [c].length = [c] := by simpa using htake
        have := sumOfSquaresGo_of_take [c] s 0 hpre
        rw [StringSearch.sumOfSquares] at h
        rw [this] at h
        simp only [Option.some.injEq, Prod.mk.injEq] at h
        have hsc := h.1
        simpa [List.range'] using hsc.symm

/-! ### The highlighter wraps maximal runs (C8) -/

theorem extendRun_consumed :
    ∀ (l : List Nat) (j : Nat),
      j ≤ (StringSearch.extendRun j l).1 ∧
        l = List.range' (j + 1) ((StringSearch.extendRun j l).1 - j) ++
          (StringSearch.extendRun j l).2 := by
  intro l
  induction l with
  | nil =>
    intro j
    simp [StringSearch.extendRun]
  | cons k rest ih =>
    intro j
    by_cases hk : k = j + 1
    · subst hk
      have hrw : StringSearch.extendRun j ((j + 1) :: rest) = StringSearch.extendRun (j + 1) rest := by
        simp [StringSearch.extendRun]
      obtain ⟨ih1, ih2⟩ := ih (j + 1)
      rw [hrw]
      refine ⟨by omega, ?_⟩
      have hlen : (StringSearch.extendRun (j + 1) rest).1 - j =
          ((StringSearch.extendRun (j + 1) rest).1 - (j + 1)) + 1 := by omega
      rw [hlen]
      have hr : List.range' (j + 1) (((StringSearch.extendRun (j + 1) rest).1 - (j + 1)) + 1) =
          (j + 1) :: List.range' (j + 2) ((StringSearch.extendRun (j + 1) rest).1 - (j + 1)) := rfl
      rw [hr]
      simp only [List.cons_append, List.cons.injEq, true_and]
      simpa using ih2
    · have hrw : StringSearch.extendRun j (k :: rest) = (j, k :: rest) := by
        simp [StringSearch.extendRun, hk]
      rw [hrw]
      simp

theorem extendRun_head :
    ∀ (l : List Nat) (j k : Nat), (StringSearch.extendRun j l).2.head? = some k →
      k ≠ (StringSearch.extendRun j l).1 + 1 := by
  intro l
  induction l with
  | nil =>
    intro j k h
    simp [StringSearch.extendRun] at h
  | cons m rest ih =>
    intro j k h
    by_cases hm : m = j + 1
    · subst hm
      have hrw : StringSearch.extendRun j ((j + 1) :: rest) = StringSearch.extendRun (j + 1) rest := by
        simp [StringSearch.extendRun]
      rw [hrw] at h ⊢
      exact ih (j + 1) k h
    · have hrw : StringSearch.extendRun j (m :: rest) = (j, m :: rest) := by
        simp [StringSearch.extendRun, hm]
      rw [hrw] at h ⊢
      simp only [List.head?_cons, Option.some.injEq] at h
      subst h
      simpa using hm

theorem runs_facts :
    ∀ (n : Nat) (idx : List Nat), idx.length ≤ n →
      (∀ (s : List Char) (last : Nat),
          StringSearch.highlightGo s last idx =
            StringSearch.specRender s last (StringSearch.runs idx)) ∧
        StringSearch.flattenRuns (StringSearch.runs idx) = idx ∧
        List.Chain' (fun p q => q.1 ≠ p.2 + 1) (StringSearch.runs idx) := by
  intro n
  induction n with
  | zero =>
    intro idx h
    have hidx : idx = [] := List.length_eq_zero.mp (Nat.le_zero.mp h)
    subst hidx
    refine ⟨fun s last => ?_, by simp [StringSearch.runs, StringSearch.flattenRuns], by
      simp [StringSearch.runs]⟩
    simp [StringSearch.highlightGo, StringSearch.runs, StringSearch.specRender]
  | succ n ih =>
    intro idx h
    cases idx with
    | nil =>
      refine ⟨fun s last => ?_, by simp [StringSearch.runs, StringSearch.flattenRuns], by
        simp [StringSearch.runs]⟩
      simp [StringSearch.highlightGo, StringSearch.runs, StringSearch.specRender]
    | cons i rest =>
      have hlen : rest.length ≤ n := by
        simp only [List.length_cons] at h
        omega
      have htail : (StringSearch.extendRun i rest).2.length ≤ n :=
        Nat.le_trans (StringSearch.extendRun_snd_length i rest) hlen
      obtain ⟨ihgo, ihflat, ihchain⟩ := ih (StringSearch.extendRun i rest).2 htail
      obtain ⟨hj, hcons⟩ := extendRun_consumed rest i
      have hruns : StringSearch.runs (i :: rest) =
          (i, (StringSearch.extendRun i rest).1) :: StringSearch.runs (StringSearch.extendRun i rest).2 := by
        rw [StringSearch.runs]
      refine ⟨fun s last => ?_, ?_, ?_⟩
      · rw [StringSearch.highlightGo, hruns, StringSearch.specRender]
        rw [ihgo]
      · rw [hruns, StringSearch.flattenRuns, ihflat]
        have hspan : (StringSearch.extendRun i rest).1 + 1 - i =
            ((StringSearch.extendRun i rest).1 - i) + 1 := by omega
        rw [hspan]
        have hr : List.range' i (((StringSearch.extendRun i rest).1 - i) + 1) =
            i :: List.range' (i + 1) ((StringSearch.extendRun i rest).1 - i) := rfl
        rw [hr]
        simp only [List.cons_append, List.cons.injEq, true_and]
        exact hcons.symm
      · rw [hruns]
        rw [List.chain'_cons']
        refine ⟨?_, ihchain⟩
        intro q hq
        cases he : (StringSearch.extendRun i rest).2 with
        | nil =>
          rw [he] at hq
          simp [StringSearch.runs] at hq
        | cons m ms =>
          rw [he] at hq
          rw [StringSearch.runs] at hq
          simp only [List.head?_cons, Option.mem_def, Option.some.injEq] at hq
          have hm : m ≠ (StringSearch.extendRun i rest).1 + 1 := by
            apply extendRun_head rest i
            rw [he]
            rfl
          rw [← hq]
          simpa using hm

/-- C8: highlight leaves a string untouched for an empty index list,
coincides with the spec-modelled maximal-run renderer (one em marker pair
per maximal contiguous run, unmatched gaps copied verbatim), the run
decomposition covers exactly the given indices with no two adjacent runs
mergeable, and the concrete example wraps the run el of hello in a single
pair. -/
theorem C8_highlight_wraps_maximal_runs :
    (∀ s : List Char, StringSearch.highlight s [] = s) ∧
      (∀ (s : List Char) (indices : List Nat),
        StringSearch.highlight s indices = StringSearch.specHighlight s indices) ∧
      (∀ indices : List Nat,
        StringSearch.flattenRuns (StringSearch.runs indices) = indices) ∧
      (∀ indices : List Nat,
        List.Chain' (fun p q => q.1 ≠ p.2 + 1) (StringSearch.runs indices)) ∧
      StringSearch.highlight "hello".toList [1, 2] = "h<em>el</em>lo".toList := by
  have hspec : ∀ (s : List Char) (indices : List Nat),
      StringSearch.highlight s indices = StringSearch.specHighlight s indices := by
    intro s indices
    exact (runs_facts indices.length indices (Nat.le_refl _)).1 s 0
  have hrun12 : StringSearch.runs [1, 2] = [(1, 2)] := by
    rw [StringSearch.runs]
    have he : StringSearch.extendRun 1 [2] = (2, []) := by
      simp [StringSearch.extendRun]
    rw [he]
    rw [StringSearch.runs]
  refine ⟨?_, hspec, ?_, ?_, ?_⟩
  · intro s
    simp [StringSearch.highlight, StringSearch.highlightGo]
  · intro indices
    exact (runs_facts indices.length indices (Nat.le_refl _)).2.1
  · intro indices
    exact (runs_facts indices.length indices (Nat.le_refl _)).2.2
  · rw [hspec, StringSearch.specHighlight, hrun12]
    decide

/-! ### Trimming lemmas and the query grammar (C9, C10) -/

theorem dropWhile_idem {α : Type} (p : α → Bool) :
    ∀ l : List α, (l.dropWhile p).dropWhile p = l.dropWhile p := by
  intro l
  induction l with
  | nil => rfl
  | cons x xs ih =>
    by_cases hx : p x
    · simp [List.dropWhile_cons, hx, ih]
    · simp [List.dropWhile_cons, hx]

theorem trimLeft_trimLeft (l : List Char) : trimLeft (trimLeft l) = trimLeft l :=
  dropWhile_idem isWs l

theorem trimRight_trimRight (l : List Char) : trimRight (trimRight l) = trimRight l := by
  unfold trimRight
  rw [List.reverse_reverse, dropWhile_idem]

theorem dropWhile_append_last {α : Type} {p : α → Bool} {a : α} (ha : p a = false) :
    ∀ A : List α, ∃ A', (A ++ [a]).dropWhile p = A' ++ [a] := by
  intro A
  induction A with
  | nil =>
    refine ⟨[], ?_⟩
    simp [List.dropWhile_cons, ha]
  | cons x A ih =>
    by_cases hx : p x
    · obtain ⟨A', hA'⟩ := ih
      refine ⟨A', ?_⟩
      simpa [List.dropWhile_cons, hx] using hA'
    · refine ⟨x :: A, ?_⟩
      simp [List.dropWhile_cons, hx]

theorem trimLeft_trimRight {l : List Char} (h : trimLeft l = l) :
    trimLeft (trimRight l) = trimRight l := by
  cases l with
  | nil => rfl
  | cons a m =>
    have ha : isWs a = false := by
      by_contra hws
      have hws' : isWs a = true := by
        cases hval : isWs a
        · exact absurd hval hws
        · rfl
      have hlt : (m.dropWhile isWs).length ≤ m.length :=
        (List.dropWhile_sublist isWs).length_le
      have hcontra : trimLeft (a :: m) = trimLeft m := by
        simp [trimLeft, List.dropWhile_cons, hws']
      rw [hcontra] at h
      have : (a :: m).length ≤ m.length := by
        rw [← h]
        simpa [trimLeft] using hlt
      simp at this
    obtain ⟨A', hA'⟩ := dropWhile_append_last ha m.reverse
    have htr : trimRight (a :: m) = a :: A'.reverse := by
      unfold trimRight
      rw [List.reverse_cons, hA']
      simp
    rw [htr]
    simp [trimLeft, List.dropWhile_cons, ha]

theorem trim_trim (l : List Char) : trim (trim l) = trim l := by
  unfold trim
  rw [trimLeft_trimRight (trimLeft_trimLeft l), trimRight_trimRight]

theorem trim_cons_ws {c : Char} (hc : isWs c = true) (l : List Char) :
    trim (c :: l) = trim l := by
  unfold trim trimLeft
  rw [List.dropWhile_cons, if_pos hc]

theorem trim_subset {x : Char} {l : List Char} (h : x ∈ trim l) : x ∈ l := by
  unfold trim trimRight trimLeft at h
  rw [List.mem_reverse] at h
  have h1 := List.dropWhile_subset isWs h
  rw [List.mem_reverse] at h1
  exact List.dropWhile_subset isWs h1

/-- C9: joinQuery then splitQuery reproduces a category / text pair up to
trimming, for parts that contain no colon delimiter. -/
theorem C9_split_join_round_trip (c t : List Char) (hc : ':' ∉ c) (ht : ':' ∉ t) :
    splitQuery (joinQuery c t) = (trim c, trim t) := by
  have hctrim : ':' ∉ trim c := fun hx => hc (trim_subset hx)
  have hfind : indexOfFrom (joinQuery c t) ':' 0 = some (trim c).length := by
    unfold indexOfFrom joinQuery
    rw [List.drop_zero]
    have hs := scanFrom_append (c := ':') hctrim (' ' :: trim t) 0
    simpa using hs
  rw [splitQuery]
  simp only [hfind]
  have htake : (joinQuery c t).take (trim c).length = trim c := by
    unfold joinQuery
    exact List.take_left (trim c) (':' :: ' ' :: trim t)
  have hdrop : (joinQuery c t).drop ((trim c).length + 1) = ' ' :: trim t := by
    unfold joinQuery
    have hsplit : trim c ++ ':' :: ' ' :: trim t = (trim c ++ [':']) ++ ' ' :: trim t := by
      simp
    rw [hsplit]
    have hlen : (trim c).length + 1 = (trim c ++ [':']).length := by simp
    rw [hlen, List.drop_left]
  rw [htake, hdrop, trim_trim, trim_cons_ws (by decide), trim_trim]

/-- Witness for C9 at the concrete pair (ab, cd): neither part contains a
colon and the round trip reproduces the trimmed parts. -/
theorem C9_split_join_round_trip_witness :
    (':' ∉ "ab".toList) ∧ (':' ∉ " cd ".toList) ∧
      splitQuery (joinQuery "ab".toList " cd ".toList) = (trim "ab".toList, trim " cd ".toList) :=
  ⟨by decide, by decide,
    C9_split_join_round_trip "ab".toList " cd ".toList (by decide) (by decide)⟩

/-- C10: splitQuery splits at the first colon only: with a colon present
the category is the trimmed prefix before the first colon and the text the
trimmed remainder (later colons kept); with no colon the category is empty
and the text is the whole trimmed input; a leading colon yields an empty
category with everything after the colon, later colons included, kept in
the text. -/
theorem C10_splitQuery_first_colon :
    (∀ a b : List Char, ':' ∉ a → splitQuery (a ++ ':' :: b) = (trim a, trim b)) ∧
      (∀ q : List Char, ':' ∉ q → splitQuery q = ([], trim q)) ∧
      (∀ q : List Char, splitQuery (':' :: q) = ([], trim q)) ∧
      splitQuery ":category: free text".toList = ([], "category: free text".toList) := by
  have part1 : ∀ a b : List Char, ':' ∉ a → splitQuery (a ++ ':' :: b) = (trim a, trim b) := by
    intro a b ha
    have hfind : indexOfFrom (a ++ ':' :: b) ':' 0 = some a.length := by
      unfold indexOfFrom
      rw [List.drop_zero]
      have hs := scanFrom_append (c := ':') ha b 0
      simpa using hs
    rw [splitQuery]
    simp only [hfind]
    have htake : (a ++ ':' :: b).take a.length = a := List.take_left a (':' :: b)
    have hdrop : (a ++ ':' :: b).drop (a.length + 1) = b := by
      have hsplit : a ++ ':' :: b = (a ++ [':']) ++ b := by simp
      rw [hsplit]
      have hlen : a.length + 1 = (a ++ [':']).length := by simp
      rw [hlen, List.drop_left]
    rw [htake, hdrop]
  refine ⟨part1, ?_, ?_, ?_⟩
  · intro q hq
    have hfind : indexOfFrom q ':' 0 = none := by
      unfold indexOfFrom
      rw [List.drop_zero]
      exact scanFrom_eq_none.mpr hq
    rw [splitQuery]
    simp only [hfind]
  · intro q
    have := part1 [] q (by simp)
    simpa using this
  · decide

/-! ### Changed notifications of the registry mutations (C7) -/

/-- C7 counterexample: addItems with an empty options batch emits the
changed notification (second component true) although the item list is
unchanged, so a notification can fire without a membership change. -/
theorem C7_empty_batch_notifies_counterexample :
    addItems ([] : List StandardPaletteItem) [] = ([], true) :=
  rfl

/-- C7 (amended): addItem always changes membership and fires one
notification; removeItem, removeItems and clearItems fire one
notification exactly when the item list changed (no notification for
removing absent items or clearing an empty registry); addItems fires
exactly one notification per batch, but does so even for an empty batch,
the single case in which a notification fires without a membership
change. -/
theorem C7_notifications_amended :
    (∀ (items : List StandardPaletteItem) (o : IStandardPaletteItemOptions),
        (addItem items o).2 = true ∧ (addItem items o).1 ≠ items) ∧
      (∀ (items : List StandardPaletteItem) (os : List IStandardPaletteItemOptions),
        (addItems items os).2 = true ∧ ((addItems items os).1 ≠ items ↔ os ≠ [])) ∧
      (∀ (items : List StandardPaletteItem) (it : StandardPaletteItem),
        (removeItem items it).2 = true ↔ (removeItem items it).1 ≠ items) ∧
      (∀ (items toRemove : List StandardPaletteItem),
        (removeItems items toRemove).2 = true ↔ (removeItems items toRemove).1 ≠ items) ∧
      (∀ items : List StandardPaletteItem,
        (clearItems items).2 = true ↔ (clearItems items).1 ≠ items) := by
  refine ⟨?_, ?_, ?_, ?_, ?_⟩
  · intro items o
    refine ⟨rfl, fun h => ?_⟩
    have := congrArg List.length h
    simp [addItem] at this
  · intro items os
    refine ⟨rfl, ?_⟩
    constructor
    · intro h hos
      subst hos
      simp [addItems] at h
    · intro hos h
      have hlen := congrArg List.length h
      simp [addItems] at hlen
      exact hos hlen
  · intro items it
    by_cases hmem : it ∈ items
    · have hlen : (items.erase it).length = items.length - 1 :=
        List.length_erase_of_mem hmem
      have hpos : 0 < items.length := List.length_pos_of_mem hmem
      simp only [removeItem, if_pos hmem]
      constructor
      · intro _ h
        have := congrArg List.length h
        omega
      · intro _
        trivial
    · simp only [removeItem, if_neg hmem]
      constructor
      · intro h
        simp at h
      · intro h
        exact absurd rfl h
  · intro items toRemove
    by_cases hlen : (items.filter fun it => it ∉ toRemove).length = items.length
    · simp only [removeItems, if_pos hlen]
      constructor
      · intro h
        simp at h
      · intro h
        exact absurd rfl h
    · simp only [removeItems, if_neg hlen]
      constructor
      · intro _ h
        exact hlen (congrArg List.length h)
      · intro _
        trivial
  · intro items
    by_cases hlen : items.length = 0
    · simp only [clearItems, if_pos hlen]
      constructor
      · intro h
        simp at h
      · intro h
        exact absurd rfl h
    · simp only [clearItems, if_neg hlen]
      constructor
      · intro _ h
        exact hlen (by simp [← h])
      · intro _
        trivial

/-! ### Structure of the grouped search pipeline (C4, C5, C6) -/

theorem addToGroups_mem :
    ∀ (gs : List (List Char × List IItemScore)) (sc : IItemScore)
      (p : List Char × List IItemScore), p ∈ addToGroups gs sc →
      p ∈ gs ∨ (∃ q ∈ gs, q.1 = sc.item.category ∧ p = (q.1, q.2 ++ [sc])) ∨
        p = (sc.item.category, [sc]) := by
  intro gs
  induction gs with
  | nil =>
    intro sc p hp
    simp only [addToGroups, List.mem_singleton] at hp
    exact Or.inr (Or.inr hp)
  | cons qh rest ih =>
    intro sc p hp
    obtain ⟨cat, g⟩ := qh
    by_cases hc : cat = sc.item.category
    · rw [addToGroups, if_pos hc] at hp
      rcases List.mem_cons.mp hp with hp | hp
      · exact Or.inr (Or.inl ⟨(cat, g), List.mem_cons_self _ _, hc, hp⟩)
      · exact Or.inl (List.mem_cons_of_mem _ hp)
    · rw [addToGroups, if_neg hc] at hp
      rcases List.mem_cons.mp hp with hp | hp
      · exact Or.inl (hp ▸ List.mem_cons_self _ _)
      · rcases ih sc p hp with h1 | ⟨q, hq, hqc, hpe⟩ | hpe
        · exact Or.inl (List.mem_cons_of_mem _ h1)
        · exact Or.inr (Or.inl ⟨q, List.mem_cons_of_mem _ hq, hqc, hpe⟩)
        · exact Or.inr (Or.inr hpe)

theorem addToGroups_wf (gs : List (List Char × List IItemScore)) (sc : IItemScore)
    (h : ∀ p ∈ gs, p.2 ≠ [] ∧ ∀ x ∈ p.2, x.item.category = p.1) :
    ∀ p ∈ addToGroups gs sc, p.2 ≠ [] ∧ ∀ x ∈ p.2, x.item.category = p.1 := by
  intro p hp
  rcases addToGroups_mem gs sc p hp with h1 | ⟨q, hq, hqc, hpe⟩ | hpe
  · exact h p h1
  · subst hpe
    refine ⟨by simp, ?_⟩
    intro x hx
    rcases List.mem_append.mp hx with hx | hx
    · exact (h q hq).2 x hx
    · rw [List.mem_singleton.mp hx]
      exact hqc.symm
  · subst hpe
    refine ⟨by simp, ?_⟩
    intro x hx
    rw [List.mem_singleton.mp hx]

theorem groupScoresGo_wf :
    ∀ (l : List IItemScore) (acc : List (List Char × List IItemScore)),
      (∀ p ∈ acc, p.2 ≠ [] ∧ ∀ x ∈ p.2, x.item.category = p.1) →
      ∀ p ∈ groupScoresGo acc l, p.2 ≠ [] ∧ ∀ x ∈ p.2, x.item.category = p.1 := by
  intro l
  induction l with
  | nil =>
    intro acc h p hp
    rw [groupScoresGo] at hp
    exact h p hp
  | cons sc rest ih =>
    intro acc h p hp
    rw [groupScoresGo] at hp
    exact ih _ (addToGroups_wf _ _ h) p hp

theorem groupScores_wf (scores : List IItemScore) :
    ∀ p ∈ groupScores scores, p.2 ≠ [] ∧ ∀ x ∈ p.2, x.item.category = p.1 :=
  groupScoresGo_wf scores [] (by simp)

theorem addToGroups_sub (gs : List (List Char × List IItemScore)) (sc : IItemScore)
    (l : List IItemScore) (h : ∀ p ∈ gs, List.Sublist p.2 l) :
    ∀ p ∈ addToGroups gs sc, List.Sublist p.2 (l ++ [sc]) := by
  intro p hp
  rcases addToGroups_mem gs sc p hp with h1 | ⟨q, hq, _, hpe⟩ | hpe
  · exact (h p h1).trans (List.sublist_append_left l [sc])
  · subst hpe
    exact List.Sublist.append (h q hq) (List.Sublist.refl [sc])
  · subst hpe
    exact List.sublist_append_right l [sc]

theorem groupScoresGo_sub :
    ∀ (l : List IItemScore) (acc : List (List Char × List IItemScore))
      (pre : List IItemScore),
      (∀ p ∈ acc, List.Sublist p.2 pre) →
      ∀ p ∈ groupScoresGo acc l, List.Sublist p.2 (pre ++ l) := by
  intro l
  induction l with
  | nil =>
    intro acc pre h p hp
    rw [groupScoresGo] at hp
    simpa using h p hp
  | cons sc rest ih =>
    intro acc pre h p hp
    rw [groupScoresGo] at hp
    have hres := ih (addToGroups acc sc) (pre ++ [sc]) (addToGroups_sub _ _ _ h) p hp
    simpa [List.append_assoc] using hres

theorem groupScores_sub (scores : List IItemScore) :
    ∀ p ∈ groupScores scores, List.Sublist p.2 scores := by
  intro p hp
  have hres := groupScoresGo_sub scores [] [] (by simp) p hp
  simpa using hres

theorem groupsFlat_mem :
    ∀ (gs : List (List Char × List IItemScore)) (sc : IItemScore),
      sc ∈ groupsFlat gs → ∃ p ∈ gs, sc ∈ p.2 := by
  intro gs
  induction gs with
  | nil =>
    intro sc h
    simp [groupsFlat] at h
  | cons ph rest ih =>
    intro sc h
    obtain ⟨cat, g⟩ := ph
    rw [groupsFlat] at h
    rcases List.mem_append.mp h with h | h
    · exact ⟨(cat, g), List.mem_cons_self _ _, h⟩
    · obtain ⟨p, hp, hsc⟩ := ih sc h
      exact ⟨p, List.mem_cons_of_mem _ hp, hsc⟩

theorem commandsOf_append :
    ∀ l₁ l₂ : List SearchResult, commandsOf (l₁ ++ l₂) = commandsOf l₁ ++ commandsOf l₂ := by
  intro l₁
  induction l₁ with
  | nil => intro l₂; rfl
  | cons r rest ih =>
    intro l₂
    cases r with
    | header t c => simp [commandsOf, ih]
    | command t i c s cl a => simp [commandsOf, ih]

theorem commandsOf_map_createCommandResult :
    ∀ g : List IItemScore, commandsOf (g.map createCommandResult) = g.map createCommandResult := by
  intro g
  induction g with
  | nil => rfl
  | cons sc rest ih =>
    simp only [List.map_cons, createCommandResult, commandsOf]
    rw [← createCommandResult]
    exact congrArg _ ih

theorem commandsOf_header_cons (t c : List Char) (l : List SearchResult) :
    commandsOf (SearchResult.header t c :: l) = commandsOf l :=
  rfl

theorem commandsOf_createSearchResults :
    ∀ (gs : List (List Char × List IItemScore)) (cats : List (List Char × IScore)),
      commandsOf (createSearchResults gs cats) = (groupsFlat gs).map createCommandResult := by
  intro gs
  induction gs with
  | nil => intro cats; rfl
  | cons ph rest ih =>
    intro cats
    obtain ⟨cat, g⟩ := ph
    rw [createSearchResults, groupsFlat, List.cons_append]
    simp only [createHeaderResult]
    rw [commandsOf_header_cons, commandsOf_append]
    rw [commandsOf_map_createCommandResult, ih, List.map_append]

theorem commandsOf_search (lc : LocaleCmp) (items : List StandardPaletteItem)
    (catQ textQ : List Char) :
    commandsOf (search lc items catQ textQ) =
      (searchFlat lc items catQ textQ).map createCommandResult := by
  unfold search searchFlat
  exact commandsOf_createSearchResults _ _

theorem matchTextGo_mem :
    ∀ (items : List StandardPaletteItem) (q : List Char)
      (cats : List (List Char × IScore)) (sc : IItemScore),
      sc ∈ matchTextGo q cats items → ∃ cs, alookup cats sc.item.category = some cs := by
  intro items
  induction items with
  | nil =>
    intro q cats sc h
    simp [matchTextGo] at h
  | cons it rest ih =>
    intro q cats sc h
    rw [matchTextGo] at h
    cases hl : alookup cats it.category with
    | none =>
      simp only [hl] at h
      exact ih q cats sc h
    | some cs =>
      simp only [hl] at h
      by_cases hq : q = []
      · rw [if_pos hq] at h
        rcases List.mem_cons.mp h with h | h
        · refine ⟨cs, ?_⟩
          rw [h]
          exact hl
        · exact ih q cats sc h
      · rw [if_neg hq] at h
        cases hss : StringSearch.sumOfSquares (it.text.map Char.toLower) q with
        | none =>
          simp only [hss] at h
          exact ih q cats sc h
        | some p =>
          obtain ⟨s0, idx⟩ := p
          simp only [hss] at h
          rcases List.mem_cons.mp h with h | h
          · refine ⟨cs, ?_⟩
            rw [h]
            exact hl
          · exact ih q cats sc h

theorem matchCategoryGo_lookup :
    ∀ (items : List StandardPaletteItem) (q : List Char) (seen : List (List Char))
      (cat : List Char) (s : IScore),
      alookup (matchCategoryGo q items seen) cat = some s →
      q = [] ∨ ∃ r, StringSearch.sumOfSquares cat q = some r := by
  intro items
  induction items with
  | nil =>
    intro q seen cat s h
    simp [matchCategoryGo, alookup] at h
  | cons it rest ih =>
    intro q seen cat s h
    rw [matchCategoryGo] at h
    by_cases hseen : it.category ∈ seen
    · rw [if_pos hseen] at h
      exact ih q seen cat s h
    · rw [if_neg hseen] at h
      by_cases hq : q = []
      · exact Or.inl hq
      · rw [if_neg hq] at h
        cases hss : StringSearch.sumOfSquares it.category q with
        | none =>
          simp only [hss] at h
          exact ih q _ cat s h
        | some p =>
          obtain ⟨s0, idx⟩ := p
          simp only [hss] at h
          rw [alookup] at h
          by_cases hk : it.category = cat
          · refine Or.inr ⟨(s0, idx), ?_⟩
            rw [← hk]
            exact hss
          · rw [if_neg hk] at h
            exact ih q _ cat s h

/-- C5: an item whose category fails the category portion of the query
(the normalized category query is non-empty and the category does not
match it) never appears among the command entries of search: no underlying
item score carries it, and the command entries are exactly the rendered
item scores. -/
theorem C5_category_mismatch_excluded (lc : LocaleCmp) (items : List StandardPaletteItem)
    (catQ textQ : List Char) (item : StandardPaletteItem)
    (hq : normalizeQueryText catQ ≠ [])
    (hnm : StringSearch.sumOfSquares item.category (normalizeQueryText catQ) = none) :
    item ∉ (searchFlat lc items catQ textQ).map (fun sc => sc.item) ∧
      commandsOf (search lc items catQ textQ) =
        (searchFlat lc items catQ textQ).map createCommandResult := by
  refine ⟨?_, commandsOf_search lc items catQ textQ⟩
  intro hmem
  obtain ⟨sc, hscflat, hsceq⟩ := List.mem_map.mp hmem
  unfold searchFlat at hscflat
  obtain ⟨p, hp, hscp⟩ := groupsFlat_mem _ sc hscflat
  have hsub := groupScores_sub _ p hp
  have hsorted : sc ∈ sortScores lc (matchText items textQ (matchCategory items catQ)) :=
    hsub.subset hscp
  have hmatch : sc ∈ matchText items textQ (matchCategory items catQ) :=
    (List.perm_insertionSort _ _).mem_iff.mp hsorted
  unfold matchText at hmatch
  obtain ⟨cs, hcs⟩ := matchTextGo_mem items _ _ sc hmatch
  rw [hsceq] at hcs
  unfold matchCategory at hcs
  rcases matchCategoryGo_lookup items _ [] item.category cs hcs with h | ⟨r, hr⟩
  · exact hq h
  · rw [hnm] at hr
    exact Option.noConfusion hr

/-- Witness for C5: a single item in category zz against the category
query q; the category query normalizes to a non-empty string that zz does
not match, and the item appears nowhere in the search output. -/
theorem C5_category_mismatch_excluded_witness :
    (normalizeQueryText "q".toList ≠ []) ∧
      (StringSearch.sumOfSquares
          (⟨"hello".toList, "zz".toList, [], [], [], [], 7⟩ : StandardPaletteItem).category
          (normalizeQueryText "q".toList) = none) ∧
      ((⟨"hello".toList, "zz".toList, [], [], [], [], 7⟩ : StandardPaletteItem) ∉
          (searchFlat codeCmp [⟨"hello".toList, "zz".toList, [], [], [], [], 7⟩]
            "q".toList []).map (fun sc => sc.item) ∧
        commandsOf (search codeCmp [⟨"hello".toList, "zz".toList, [], [], [], [], 7⟩]
            "q".toList []) =
          (searchFlat codeCmp [⟨"hello".toList, "zz".toList, [], [], [], [], 7⟩]
            "q".toList []).map createCommandResult) :=
  ⟨by decide, by decide,
    C5_category_mismatch_excluded codeCmp
      [⟨"hello".toList, "zz".toList, [], [], [], [], 7⟩] "q".toList []
      ⟨"hello".toList, "zz".toList, [], [], [], [], 7⟩ (by decide) (by decide)⟩

theorem createSearchResults_header_followed :
    ∀ (gs : List (List Char × List IItemScore)) (cats : List (List Char × IScore)),
      (∀ p ∈ gs, p.2 ≠ [] ∧ ∀ x ∈ p.2, x.item.category = p.1) →
      ∀ (i : Nat) (t c : List Char),
        (createSearchResults gs cats)[i]? = some (SearchResult.header t c) →
        ∃ sc : IItemScore,
          (createSearchResults gs cats)[i + 1]? = some (createCommandResult sc) ∧
            sc.item.category = c := by
  intro gs
  induction gs with
  | nil =>
    intro cats _ i t c h
    simp [createSearchResults] at h
  | cons ph rest ih =>
    intro cats hwf i t c h
    obtain ⟨cat, g⟩ := ph
    obtain ⟨hgne, hgcat⟩ := hwf (cat, g) (List.mem_cons_self _ _)
    rw [createSearchResults, List.cons_append] at h ⊢
    cases i with
    | zero =>
      rw [List.getElem?_cons_zero] at h
      have hcat : c = cat := by
        simp only [createHeaderResult, Option.some.injEq] at h
        exact (SearchResult.header.injEq _ _ _ _).mp h.symm |>.2
      obtain ⟨g0, gtail, hg⟩ := List.exists_cons_of_ne_nil hgne
      subst hg
      refine ⟨g0, ?_, ?_⟩
      · rw [List.getElem?_cons_succ, List.map_cons, List.cons_append,
          List.getElem?_cons_zero]
      · rw [hgcat g0 (List.mem_cons_self _ _), hcat]
    | succ j =>
      rw [List.getElem?_cons_succ] at h
      rcases Nat.lt_or_ge j g.length with hj | hj
      · exfalso
        rw [List.getElem?_append_left (by simpa using hj)] at h
        rw [List.getElem?_map] at h
        cases hgj : g[j]? with
        | none =>
          rw [hgj] at h
          simp at h
        | some v =>
          rw [hgj] at h
          simp [createCommandResult] at h
      · have hmaplen : (List.map createCommandResult g).length = g.length :=
          List.length_map _ _
        rw [List.getElem?_append_right (by rw [hmaplen]; exact hj)] at h
        rw [hmaplen] at h
        obtain ⟨sc, hsc, hc⟩ :=
          ih cats (fun p hp => hwf p (List.mem_cons_of_mem _ hp)) (j - g.length) t c h
        refine ⟨sc, ?_, hc⟩
        rw [List.getElem?_cons_succ]
        rw [List.getElem?_append_right (by rw [hmaplen]; omega)]
        rw [hmaplen]
        have harith : j + 1 - g.length = (j - g.length) + 1 := by omega
        rw [harith]
        exact hsc

/-- C6: every header entry of the search output is immediately followed
by a command entry of the header's category; in particular a category
with no surviving command produces no output, because headers come only
from non-empty groups of the filtered, sorted item scores. -/
theorem C6_no_orphan_headers (lc : LocaleCmp) (items : List StandardPaletteItem)
    (catQ textQ : List Char) (i : Nat) (t c : List Char)
    (h : (search lc items catQ textQ)[i]? = some (SearchResult.header t c)) :
    ∃ sc : IItemScore,
      (search lc items catQ textQ)[i + 1]? = some (createCommandResult sc) ∧
        sc.item.category = c := by
  unfold search at h ⊢
  exact createSearchResults_header_followed _ _ (groupScores_wf _) i t c h

/-- Witness for C6: one item in the empty category with the empty query;
the output starts with the header of the empty category, immediately
followed by the command rendered from that item. -/
theorem C6_no_orphan_headers_witness :
    ((search codeCmp [⟨"a".toList, [], [], [], [], [], 0⟩] [] [])[0]? =
        some (SearchResult.header [] [])) ∧
      ∃ sc : IItemScore,
        (search codeCmp [⟨"a".toList, [], [], [], [], [], 0⟩] [] [])[1]? =
            some (createCommandResult sc) ∧
          sc.item.category = [] :=
  ⟨by decide,
    C6_no_orphan_headers codeCmp [⟨"a".toList, [], [], [], [], [], 0⟩] [] [] 0 [] []
      (by decide)⟩

/-! ### Sorting by scoreCmp (C4).  localeCompare is kept abstract: the
hypotheses below say its sign behaves as a total preorder comparison,
which every consistent comparator (and codeCmp in particular)
satisfies. -/

theorem codeCmp_neg : ∀ x y : List Char, codeCmp y x = -codeCmp x y := by
  intro x
  induction x with
  | nil =>
    intro y
    cases y with
    | nil => rfl
    | cons b bs => rfl
  | cons a as ih =>
    intro y
    cases y with
    | nil => rfl
    | cons b bs =>
      show codeCmp (b :: bs) (a :: as) = -codeCmp (a :: as) (b :: bs)
      rw [codeCmp, codeCmp]
      by_cases hab : a.toNat < b.toNat
      · have hba : ¬ b.toNat < a.toNat := by omega
        rw [if_neg hba, if_pos hab, if_pos hab]
        decide
      · by_cases hba : b.toNat < a.toNat
        · rw [if_pos hba, if_neg hab, if_pos hba]
        · rw [if_neg hba, if_neg hab, if_neg hab, if_neg hba]
          exact ih bs

theorem codeCmp_total : ∀ x y : List Char, codeCmp x y ≤ 0 ∨ codeCmp y x ≤ 0 := by
  intro x y
  rcases Int.le_total (codeCmp x y) 0 with h | h
  · exact Or.inl h
  · right
    rw [codeCmp_neg x y]
    omega

theorem codeCmp_sign : ∀ x y : List Char, codeCmp x y ≤ 0 ↔ 0 ≤ codeCmp y x := by
  intro x y
  rw [codeCmp_neg x y]
  omega

theorem codeCmp_le_trans :
    ∀ x y z : List Char, codeCmp x y ≤ 0 → codeCmp y z ≤ 0 → codeCmp x z ≤ 0 := by
  intro x
  induction x with
  | nil =>
    intro y z _ _
    cases z with
    | nil => exact Int.le_refl 0
    | cons c cs =>
      show (-1 : Int) ≤ 0
      decide
  | cons a as ih =>
    intro y z hxy hyz
    cases y with
    | nil =>
      exfalso
      rw [codeCmp] at hxy
      omega
    | cons b bs =>
      cases z with
      | nil =>
        exfalso
        rw [codeCmp] at hyz
        omega
      | cons c cs =>
        rw [codeCmp] at hxy hyz ⊢
        by_cases hab : a.toNat < b.toNat
        · by_cases hbc : b.toNat < c.toNat
          · rw [if_pos (by omega : a.toNat < c.toNat)]
            omega
          · by_cases hcb : c.toNat < b.toNat
            · exfalso
              rw [if_neg hbc, if_pos hcb] at hyz
              omega
            · rw [if_pos (by omega : a.toNat < c.toNat)]
              omega
        · by_cases hba : b.toNat < a.toNat
          · exfalso
            rw [if_neg hab, if_pos hba] at hxy
            omega
          · have hxy' : codeCmp as bs ≤ 0 := by
              rw [if_neg hab, if_neg hba] at hxy
              exact hxy
            by_cases hbc : b.toNat < c.toNat
            · rw [if_pos (by omega : a.toNat < c.toNat)]
              omega
            · by_cases hcb : c.toNat < b.toNat
              · exfalso
                rw [if_neg hbc, if_pos hcb] at hyz
                omega
              · have hyz' : codeCmp bs cs ≤ 0 := by
                  rw [if_neg hbc, if_neg hcb] at hyz
                  exact hyz
                rw [if_neg (by omega : ¬ a.toNat < c.toNat),
                  if_neg (by omega : ¬ c.toNat < a.toNat)]
                exact ih bs cs hxy' hyz'

theorem lc_zero_symm {lc : LocaleCmp} (h3 : ∀ x y, lc x y ≤ 0 ↔ 0 ≤ lc y x)
    {x y : List Char} (h : lc x y = 0) : lc y x = 0 := by
  have ha : 0 ≤ lc y x := (h3 x y).mp (Int.le_of_eq h)
  have hb : lc y x ≤ 0 := (h3 y x).mpr (Int.le_of_eq h.symm)
  omega

theorem lc_lt_lt {lc : LocaleCmp}
    (h2 : ∀ x y z, lc x y ≤ 0 → lc y z ≤ 0 → lc x z ≤ 0)
    (h3 : ∀ x y, lc x y ≤ 0 ↔ 0 ≤ lc y x)
    {x y z : List Char} (hxy : lc x y < 0) (hyz : lc y z < 0) : lc x z < 0 := by
  have hle : lc x z ≤ 0 := h2 x y z (Int.le_of_lt hxy) (Int.le_of_lt hyz)
  by_cases heq : lc x z = 0
  · exfalso
    have hzx : lc z x = 0 := lc_zero_symm h3 heq
    have hzy : lc z y ≤ 0 := h2 z x y (Int.le_of_eq hzx) (Int.le_of_lt hxy)
    have := (h3 z y).mp hzy
    omega
  · omega

theorem lc_lt_eq {lc : LocaleCmp}
    (h2 : ∀ x y z, lc x y ≤ 0 → lc y z ≤ 0 → lc x z ≤ 0)
    (h3 : ∀ x y, lc x y ≤ 0 ↔ 0 ≤ lc y x)
    {x y z : List Char} (hxy : lc x y < 0) (hyz : lc y z = 0) : lc x z < 0 := by
  have hle : lc x z ≤ 0 := h2 x y z (Int.le_of_lt hxy) (Int.le_of_eq hyz)
  by_cases heq : lc x z = 0
  · exfalso
    have hzx : lc z x = 0 := lc_zero_symm h3 heq
    have hyx : lc y x ≤ 0 := h2 y z x (Int.le_of_eq hyz) (Int.le_of_eq hzx)
    have := (h3 y x).mp hyx
    omega
  · omega

theorem lc_eq_lt {lc : LocaleCmp}
    (h2 : ∀ x y z, lc x y ≤ 0 → lc y z ≤ 0 → lc x z ≤ 0)
    (h3 : ∀ x y, lc x y ≤ 0 ↔ 0 ≤ lc y x)
    {x y z : List Char} (hxy : lc x y = 0) (hyz : lc y z < 0) : lc x z < 0 := by
  have hle : lc x z ≤ 0 := h2 x y z (Int.le_of_eq hxy) (Int.le_of_lt hyz)
  by_cases heq : lc x z = 0
  · exfalso
    have hzx : lc z x = 0 := lc_zero_symm h3 heq
    have hzy : lc z y ≤ 0 := h2 z x y (Int.le_of_eq hzx) (Int.le_of_eq hxy)
    have := (h3 z y).mp hzy
    omega
  · omega

theorem lc_eq_eq {lc : LocaleCmp}
    (h2 : ∀ x y z, lc x y ≤ 0 → lc y z ≤ 0 → lc x z ≤ 0)
    (h3 : ∀ x y, lc x y ≤ 0 ↔ 0 ≤ lc y x)
    {x y z : List Char} (hxy : lc x y = 0) (hyz : lc y z = 0) : lc x z = 0 := by
  have hle : lc x z ≤ 0 := h2 x y z (Int.le_of_eq hxy) (Int.le_of_eq hyz)
  have hyx : lc y x = 0 := lc_zero_symm h3 hxy
  have hzy : lc z y = 0 := lc_zero_symm h3 hyz
  have hzx : lc z x ≤ 0 := h2 z y x (Int.le_of_eq hzy) (Int.le_of_eq hyx)
  have := (h3 z x).mp hzx
  omega

theorem scoreLe_iff (lc : LocaleCmp) (a b : IItemScore) :
    scoreLe lc a b ↔
      a.score < b.score ∨
        (a.score = b.score ∧
          (lc a.item.category b.item.category < 0 ∨
            (lc a.item.category b.item.category = 0 ∧
              lc a.item.text b.item.text ≤ 0))) := by
  unfold scoreLe scoreCmp
  by_cases hd1 : ((a.score : Int) - (b.score : Int)) ≠ 0
  · rw [if_pos hd1]
    constructor
    · intro h
      left
      omega
    · intro h
      rcases h with h | ⟨h, _⟩
      · omega
      · omega
  · rw [if_neg hd1]
    have hsc : a.score = b.score := by omega
    by_cases hd2 : lc a.item.category b.item.category ≠ 0
    · rw [if_pos hd2]
      constructor
      · intro h
        exact Or.inr ⟨hsc, Or.inl (by omega)⟩
      · intro h
        rcases h with h | ⟨_, h | ⟨h, _⟩⟩
        · omega
        · omega
        · exact absurd h hd2
    · rw [if_neg hd2]
      have hd2' : lc a.item.category b.item.category = 0 := by omega
      constructor
      · intro h
        exact Or.inr ⟨hsc, Or.inr ⟨hd2', h⟩⟩
      · intro h
        rcases h with h | ⟨_, h | ⟨_, h⟩⟩
        · omega
        · omega
        · exact h

/-- C4 counterexample: with three items in categories a and b whose text
scores against the query x are 0, 1 and 4, the flattened command order of
search carries scores [0, 4, 1]: grouping by category re-orders the sorted
scores, so the command entries of the output are not globally ascending by
total score. -/
theorem C4_global_score_order_counterexample :
    ((searchFlat codeCmp cexItems [] "x".toList).map fun sc => sc.score) = [0, 4, 1] ∧
      commandsOf (search codeCmp cexItems [] "x".toList) =
        (searchFlat codeCmp cexItems [] "x".toList).map createCommandResult ∧
      ¬ List.Pairwise (fun a b : IItemScore => a.score ≤ b.score)
          (searchFlat codeCmp cexItems [] "x".toList) :=
  ⟨by decide, commandsOf_search codeCmp cexItems [] "x".toList, by decide⟩

/-- C4 (amended): within each category group of the search output the
command entries are sorted by scoreCmp, ascending by total item score with
ties broken by the locale comparison of the category and then of the text;
across groups the output is ordered by category grouping, so the global
sequence need not be ascending by score.  The locale comparator is
abstract; the hypotheses state that its sign is a total preorder
comparison. -/
theorem C4_sorted_within_groups_amended (lc : LocaleCmp)
    (h1 : ∀ x y, lc x y ≤ 0 ∨ lc y x ≤ 0)
    (h2 : ∀ x y z, lc x y ≤ 0 → lc y z ≤ 0 → lc x z ≤ 0)
    (h3 : ∀ x y, lc x y ≤ 0 ↔ 0 ≤ lc y x)
    (items : List StandardPaletteItem) (catQ textQ : List Char)
    (cat : List Char) (g : List IItemScore)
    (hg : (cat, g) ∈ groupScores
      (sortScores lc (matchText items textQ (matchCategory items catQ)))) :
    List.Pairwise (scoreLe lc) g := by
  have htotal : IsTotal IItemScore (scoreLe lc) := by
    constructor
    intro a b
    rw [scoreLe_iff, scoreLe_iff]
    rcases Nat.lt_trichotomy a.score b.score with hs | hs | hs
    · exact Or.inl (Or.inl hs)
    · rcases h1 a.item.category b.item.category with hcat | hcat
      · by_cases hcat0 : lc a.item.category b.item.category = 0
        · rcases h1 a.item.text b.item.text with htext | htext
          · exact Or.inl (Or.inr ⟨hs, Or.inr ⟨hcat0, htext⟩⟩)
          · exact Or.inr (Or.inr ⟨hs.symm, Or.inr ⟨lc_zero_symm h3 hcat0, htext⟩⟩)
        · exact Or.inl (Or.inr ⟨hs, Or.inl (by omega)⟩)
      · by_cases hcat0 : lc b.item.category a.item.category = 0
        · rcases h1 a.item.text b.item.text with htext | htext
          · exact Or.inl (Or.inr ⟨hs, Or.inr ⟨lc_zero_symm h3 hcat0, htext⟩⟩)
          · exact Or.inr (Or.inr ⟨hs.symm, Or.inr ⟨hcat0, htext⟩⟩)
        · exact Or.inr (Or.inr ⟨hs.symm, Or.inl (by omega)⟩)
    · exact Or.inr (Or.inl hs)
  have htrans : IsTrans IItemScore (scoreLe lc) := by
    constructor
    intro a b c hab hbc
    rw [scoreLe_iff] at hab hbc ⊢
    rcases hab with hab | ⟨hab, habc⟩
    · rcases hbc with hbc | ⟨hbc, _⟩
      · exact Or.inl (by omega)
      · exact Or.inl (by omega)
    · rcases hbc with hbc | ⟨hbc, hbcc⟩
      · exact Or.inl (by omega)
      · refine Or.inr ⟨by omega, ?_⟩
        rcases habc with hcat | ⟨hcat, htext⟩
        · rcases hbcc with hcat' | ⟨hcat', _⟩
          · exact Or.inl (lc_lt_lt h2 h3 hcat hcat')
          · exact Or.inl (lc_lt_eq h2 h3 hcat hcat')
        · rcases hbcc with hcat' | ⟨hcat', htext'⟩
          · exact Or.inl (lc_eq_lt h2 h3 hcat hcat')
          · exact Or.inr ⟨lc_eq_eq h2 h3 hcat hcat', h2 _ _ _ htext htext'⟩
  have hsorted : List.Pairwise (scoreLe lc)
      (sortScores lc (matchText items textQ (matchCategory items catQ))) := by
    unfold sortScores
    exact List.sorted_insertionSort _ _
  exact List.Pairwise.sublist (groupScores_sub _ (cat, g) hg) hsorted

/-- Witness for C4 (amended) at the comparator codeCmp and a one-item
registry with the empty query: the single group is sorted. -/
theorem C4_sorted_within_groups_amended_witness :
    ((([] : List Char),
        [(⟨0, none, ⟨"a".toList, [], [], [], [], [], 0⟩⟩ : IItemScore)]) ∈
      groupScores (sortScores codeCmp
        (matchText [⟨"a".toList, [], [], [], [], [], 0⟩] []
          (matchCategory [⟨"a".toList, [], [], [], [], [], 0⟩] [])))) ∧
      List.Pairwise (scoreLe codeCmp)
        [(⟨0, none, ⟨"a".toList, [], [], [], [], [], 0⟩⟩ : IItemScore)] :=
  ⟨by decide,
    C4_sorted_within_groups_amended codeCmp codeCmp_total codeCmp_le_trans codeCmp_sign
      [⟨"a".toList, [], [], [], [], [], 0⟩] [] [] []
      [⟨0, none, ⟨"a".toList, [], [], [], [], [], 0⟩⟩] (by decide)⟩

end PhosphorPalette
